import Mathlib

/-!
Shallow embedding of the 3-2-1 voting application (candidate identity and
merge engine, vote store, aggregator) from `main7.py` / `main.py`, together
with theorems settling the specification claims about that code.

Persistent state (the two CSV files) is modelled as in-memory lists; each
admin handler ends with `save_candidates` / `to_csv` followed by a rerun
that reloads the saved data, so the post-state of a handler is exactly the
value it saved.
-/

namespace Form2

/-! ## Data model

Candidates: `candidates.csv` rows `id,label,active`.
Votes: `votes.csv` rows `voter_name,employee_id,first_id,second_id,third_id,time`.
A rank field is `Option String` because a candidate delete writes `None`
into the corresponding cells. -/

structure Candidate where
  id : String
  label : String
  active : Bool
deriving DecidableEq, Repr

structure Vote where
  voter_name : String
  employee_id : String
  first_id : Option String
  second_id : Option String
  third_id : Option String
  time : String
deriving DecidableEq, Repr

/-! ## Text normalization helpers

`unicodedata.normalize("NFKC", s)` is a library call; it is modelled here
restricted to the character repertoire this application manipulates:
half-width (JIS X 0201) katakana are widened to their full-width forms,
with a following voiced/semi-voiced sound mark composed into the preceding
base character, and every other character is a fixed point. -/

def hwKana : List (Char × Char) :=
  [('ｱ', 'ア'), ('ｲ', 'イ'), ('ｳ', 'ウ'), ('ｴ', 'エ'), ('ｵ', 'オ'),
   ('ｶ', 'カ'), ('ｷ', 'キ'), ('ｸ', 'ク'), ('ｹ', 'ケ'), ('ｺ', 'コ'),
   ('ｻ', 'サ'), ('ｼ', 'シ'), ('ｽ', 'ス'), ('ｾ', 'セ'), ('ｿ', 'ソ'),
   ('ﾀ', 'タ'), ('ﾁ', 'チ'), ('ﾂ', 'ツ'), ('ﾃ', 'テ'), ('ﾄ', 'ト'),
   ('ﾅ', 'ナ'), ('ﾆ', 'ニ'), ('ﾇ', 'ヌ'), ('ﾈ', 'ネ'), ('ﾉ', 'ノ'),
   ('ﾊ', 'ハ'), ('ﾋ', 'ヒ'), ('ﾌ', 'フ'), ('ﾍ', 'ヘ'), ('ﾎ', 'ホ'),
   ('ﾏ', 'マ'), ('ﾐ', 'ミ'), ('ﾑ', 'ム'), ('ﾒ', 'メ'), ('ﾓ', 'モ'),
   ('ﾔ', 'ヤ'), ('ﾕ', 'ユ'), ('ﾖ', 'ヨ'),
   ('ﾗ', 'ラ'), ('ﾘ', 'リ'), ('ﾙ', 'ル'), ('ﾚ', 'レ'), ('ﾛ', 'ロ'),
   ('ﾜ', 'ワ'), ('ｦ', 'ヲ'), ('ﾝ', 'ン'),
   ('ｧ', 'ァ'), ('ｨ', 'ィ'), ('ｩ', 'ゥ'), ('ｪ', 'ェ'), ('ｫ', 'ォ'),
   ('ｬ', 'ャ'), ('ｭ', 'ュ'), ('ｮ', 'ョ'), ('ｯ', 'ッ'), ('ｰ', 'ー')]

def widen (c : Char) : Char :=
  match hwKana.find? (fun p => p.1 = c) with
  | some p => p.2
  | none => c

def voicedOf (c : Char) : Option Char :=
  match ([('カ', 'ガ'), ('キ', 'ギ'), ('ク', 'グ'), ('ケ', 'ゲ'), ('コ', 'ゴ'),
          ('サ', 'ザ'), ('シ', 'ジ'), ('ス', 'ズ'), ('セ', 'ゼ'), ('ソ', 'ゾ'),
          ('タ', 'ダ'), ('チ', 'ヂ'), ('ツ', 'ヅ'), ('テ', 'デ'), ('ト', 'ド'),
          ('ハ', 'バ'), ('ヒ', 'ビ'), ('フ', 'ブ'), ('ヘ', 'ベ'), ('ホ', 'ボ'),
          ('ウ', 'ヴ')].find? (fun p => p.1 = c)) with
  | some p => some p.2
  | none => none

def semiOf (c : Char) : Option Char :=
  match ([('ハ', 'パ'), ('ヒ', 'ピ'), ('フ', 'プ'), ('ヘ', 'ペ'),
          ('ホ', 'ポ')].find? (fun p => p.1 = c)) with
  | some p => some p.2
  | none => none

def nfkcRun : List Char → List Char
  | [] => []
  | [c] => [widen c]
  | c :: m :: rest =>
    let c' := widen c
    if m = 'ﾞ' then
      match voicedOf c' with
      | some d => d :: nfkcRun rest
      | none => c' :: nfkcRun (m :: rest)
    else if m = 'ﾟ' then
      match semiOf c' with
      | some d => d :: nfkcRun rest
      | none => c' :: nfkcRun (m :: rest)
    else c' :: nfkcRun (m :: rest)

def nfkc (s : String) : String := String.mk (nfkcRun s.data)

/-- Model of the whitespace class stripped by Python str.strip() and matched
by the regex class \s (ASCII whitespace together with the common Unicode
space characters). -/
def isPySpace (c : Char) : Bool :=
  c = ' ' || c = '\t' || c = '\n' || c = '\r' ||
  c.toNat = 11 || c.toNat = 12 || c.toNat = 0x85 || c.toNat = 0xA0 ||
  (0x2000 ≤ c.toNat && c.toNat ≤ 0x200A) ||
  c.toNat = 0x2028 || c.toNat = 0x2029 || c.toNat = 0x205F || c.toNat = 0x3000

/-- Python str.strip(): drop the whitespace run at both ends. -/
def pyStrip (s : String) : String :=
  String.mk (((s.data.dropWhile isPySpace).reverse.dropWhile isPySpace).reverse)

/-- Python str.upper(), restricted to the ASCII letters this application
(employee ids such as "a12345") uses. -/
def pyUpper (s : String) : String := String.mk (s.data.map Char.toUpper)

/-- Employee-number normalization `norm_emp_id` (main7.py lines 76-81):
NFKC, strip surrounding whitespace, uppercase the letters. -/
def norm_emp_id (s : String) : String := pyUpper (pyStrip (nfkc s))

/-- Synonym table ALIAS_MAP (full-string match). -/
def ALIAS_MAP : List (String × String) :=
  [("ﾊﾟｯｹｰｼﾞ", "パッケージ"),
   ("パッケージング", "パッケージ"),
   ("パケ", "パッケージ"),
   ("包装", "パッケージ")]

def aliasLookup (s : String) : String :=
  match ALIAS_MAP.find? (fun p => p.1 = s) with
  | some p => p.2
  | none => s

/-- Hiragana to katakana by fixed code-point offset; only the hiragana block
U+3041..U+3096 is shifted. -/
def hira_to_kata (ch : Char) : Char :=
  let o := ch.toNat
  if 0x3041 ≤ o ∧ o ≤ 0x3096 then Char.ofNat (o + 0x60) else ch

/-- Character class removed by the regex sub in normalize_for_merge:
whitespace, comma, ideographic comma/full stop, middle dot, both tildes,
hyphen, underscore, slash. -/
def isStripSym (c : Char) : Bool :=
  isPySpace c || c = ',' || c = '、' || c = '。' || c = '・' ||
  c = '~' || c = '〜' || c = '-' || c = '_' || c = '/'

/-- Merge key `normalize_for_merge` on strings (main7.py lines 93-110):
NFKC of the stripped text, hiragana to katakana, strip symbols and
whitespace anywhere, then the alias table by exact full-string match. -/
def normalize_for_merge (name : String) : String :=
  let s := nfkc (pyStrip name)
  let s := String.mk (s.data.map hira_to_kata)
  let s := String.mk (s.data.filter (fun c => !isStripSym c))
  aliasLookup s

/-- Dynamically-typed argument of normalize_for_merge, for the
isinstance(name, str) guard. -/
inductive PyVal where
  | pstr : String → PyVal
  | pnone : PyVal
  | pint : Int → PyVal
  | pbool : Bool → PyVal
deriving DecidableEq, Repr

/-- The full normalize_for_merge: a non-string argument returns the empty
key immediately. -/
def normalize_for_merge_dyn : PyVal → String
  | .pstr s => normalize_for_merge s
  | _ => ""

/-! ## Vote store operations -/

/-- One cell of pandas `votes[col].replace(oldId, newId)`. -/
def replOpt (oldId newId : String) (o : Option String) : Option String :=
  if o = some oldId then some newId else o

/-- Effect of the per-column replace loop on a single vote row. -/
def replVote1 (oldId newId : String) (v : Vote) : Vote :=
  { v with first_id := replOpt oldId newId v.first_id,
           second_id := replOpt oldId newId v.second_id,
           third_id := replOpt oldId newId v.third_id }

/-- Vote Store replaceId: the per-column replace loop run for a duplicate id
(main7.py lines 425-427). -/
def replaceId (oldId newId : String) (votes : List Vote) : List Vote :=
  votes.map (replVote1 oldId newId)

/-- One cell of pandas `votes[col].where(votes[col] != cid, None)`. -/
def nullOpt (cid : String) (o : Option String) : Option String :=
  if o = some cid then none else o

/-- Effect of the delete handler's where/None loop on a single vote row. -/
def nullVote1 (cid : String) (v : Vote) : Vote :=
  { v with first_id := nullOpt cid v.first_id,
           second_id := nullOpt cid v.second_id,
           third_id := nullOpt cid v.third_id }

/-- Vote Store nullifyId: the delete handler's per-column where/None loop
(main7.py lines 480-482). -/
def nullifyId (cid : String) (votes : List Vote) : List Vote :=
  votes.map (nullVote1 cid)

/-- append_vote (main7.py lines 188-199): concatenate one new row after the
persisted votes; `now` stands for the server-assigned timestamp. -/
def append_vote (votes : List Vote) (voter_name employee_id : String)
    (first_id second_id third_id : Option String) (now : String) : List Vote :=
  votes ++ [⟨voter_name, employee_id, first_id, second_id, third_id, now⟩]

/-- Validation failures of the vote submit handler (each surfaced to the
user via st.error, with no row appended). -/
inductive VoteError where
  | missingNameOrId
  | missingRank
  | duplicateRank
  | duplicateVoter
deriving DecidableEq, Repr

/-- Vote submit handler (main7.py lines 273-292): required fields, all three
ranks chosen, pairwise-distinct ranks (the source tests
`len({first_id, second_id, third_id}) < 3`, i.e. some two of the three
selections coincide), then the one-ballot-per-employee check against every
persisted row; only then is the row appended. -/
def submitVote (votes : List Vote) (voter_name employee_id : String)
    (first_id second_id third_id : Option String) (now : String) :
    Except VoteError (List Vote) :=
  if voter_name = "" ∨ employee_id = "" then .error .missingNameOrId
  else if first_id = none ∨ second_id = none ∨ third_id = none then .error .missingRank
  else if first_id = second_id ∨ first_id = third_id ∨ second_id = third_id then
    .error .duplicateRank
  else if votes.any (fun v => norm_emp_id v.employee_id == norm_emp_id employee_id) then
    .error .duplicateVoter
  else .ok (append_vote votes voter_name employee_id first_id second_id third_id now)

/-! ## Candidate store and merge engine -/

/-- In-memory image of the two CSV files. -/
structure AppState where
  cands : List Candidate
  votes : List Vote
deriving DecidableEq, Repr

/-- save_candidates drops duplicate ids keeping the first occurrence
(pandas drop_duplicates(subset=["id"])); `seen` accumulates the ids already
emitted. -/
def dedupeGo (seen : List String) : List Candidate → List Candidate
  | [] => []
  | c :: rest =>
    if c.id ∈ seen then dedupeGo seen rest
    else c :: dedupeGo (c.id :: seen) rest

def dedupeById (l : List Candidate) : List Candidate := dedupeGo [] l

/-- The `cands.loc[cands["id"] == cid, ["label", "active"]] = [label_s, act]`
update: rewrite label and active of every row whose id is cid. -/
def updCand (cid label_s : String) (act : Bool) (c : Candidate) : Candidate :=
  if c.id = cid then { c with label := label_s, active := act } else c

/-- Rows whose normalized label equals the key (the `conflict` sub-frame of
the add handler). -/
def conflictFor (cands : List Candidate) (key : String) : List Candidate :=
  cands.filter (fun c => decide (normalize_for_merge c.label = key))

/-- The absorption loop over the non-canonical conflict rows: for each
duplicate, rewrite its id to the base id in every vote and drop its rows
from the candidate table. -/
def absorb (baseId : String) (cands : List Candidate) (votes : List Vote) :
    List Candidate → List Candidate × List Vote
  | [] => (cands, votes)
  | r :: rest =>
    absorb baseId (cands.filter (fun c => decide (c.id ≠ r.id)))
      (replaceId r.id baseId votes) rest

/-- Admin 追加 (add) handler, main7.py lines 403-433. `freshId` stands for
uuid.uuid4().hex[:8]. Returns the saved state and the id of the candidate
that was created (no conflict) or chosen as canonical (conflict); an empty
stripped label mutates nothing. -/
def addMerge (st : AppState) (raw freshId : String) : AppState × Option String :=
  let label_s := pyStrip raw
  if label_s = "" then (st, none)
  else
    match conflictFor st.cands (normalize_for_merge label_s) with
    | [] =>
      ({ cands := dedupeById (st.cands ++ [⟨freshId, label_s, true⟩]),
         votes := st.votes }, some freshId)
    | base :: rest =>
      let cands1 := st.cands.map (updCand base.id label_s true)
      ({ cands := dedupeById (absorb base.id cands1 st.votes rest).1,
         votes := (absorb base.id cands1 st.votes rest).2 }, some base.id)

/-- The conflict sub-frame of the save/rename handler: rows whose old label
normalizes to the new key, excluding the edited row's own id. -/
def renameConflict (st : AppState) (cid label_s : String) : List Candidate :=
  st.cands.filter (fun c =>
    decide (normalize_for_merge c.label = normalize_for_merge label_s ∧ c.id ≠ cid))

/-- Admin 保存 (save/rename) handler for the row at position idx,
main7.py lines 444-470: conflicts are the other rows (id distinct from the
edited row's id) whose old label normalizes to the new key; the edited row
gets the new label and active flag, each conflict row's votes are rewritten
to the edited row's id and the conflict row is removed. -/
def renameSave (st : AppState) (idx : Nat) (raw : String) (act : Bool) : AppState :=
  match st.cands.get? idx with
  | none => st
  | some row =>
    let label_s := pyStrip raw
    if label_s = "" then st
    else
      let cands1 := st.cands.map (updCand row.id label_s act)
      { cands := dedupeById (absorb row.id cands1 st.votes (renameConflict st row.id label_s)).1,
        votes := (absorb row.id cands1 st.votes (renameConflict st row.id label_s)).2 }

/-- Admin 削除 (delete) handler for the row at position idx, main7.py lines
477-487: null out the id in every vote's rank fields, then drop the
candidate. -/
def deleteCand (st : AppState) (idx : Nat) : AppState :=
  match st.cands.get? idx with
  | none => st
  | some row =>
    { cands := dedupeById (st.cands.filter (fun c => decide (c.id ≠ row.id))),
      votes := nullifyId row.id st.votes }

/-- The admin mutations the invariant claims range over: add (merging on
collision), save/rename (merging on collision), delete. -/
inductive AdminOp where
  | add (raw freshId : String)
  | save (idx : Nat) (raw : String) (act : Bool)
  | del (idx : Nat)
deriving DecidableEq, Repr

def applyOp (st : AppState) : AdminOp → AppState
  | .add raw freshId => (addMerge st raw freshId).1
  | .save idx raw act => renameSave st idx raw act
  | .del idx => deleteCand st idx

def applyOps (st : AppState) (ops : List AdminOp) : AppState :=
  ops.foldl applyOp st

/-- A rank field is valid when it is null or names a candidate present in
the candidate table. -/
def idOk (cands : List Candidate) (o : Option String) : Prop :=
  o = none ∨ ∃ c ∈ cands, o = some c.id

instance (cands : List Candidate) (o : Option String) : Decidable (idOk cands o) := by
  unfold idOk; infer_instance

/-- Referential integrity: every rank field of every vote is valid. -/
def refIntegrity (st : AppState) : Prop :=
  ∀ v ∈ st.votes,
    idOk st.cands v.first_id ∧ idOk st.cands v.second_id ∧ idOk st.cands v.third_id

instance (st : AppState) : Decidable (refIntegrity st) := by
  unfold refIntegrity; infer_instance

/-! ## Aggregator -/

structure Stat where
  points : Nat
  first : Nat
  second : Nat
  third : Nat
deriving DecidableEq, Repr

structure RankedRow where
  rank : Nat
  label : String
  points : Nat
  first : Nat
  second : Nat
  third : Nat
deriving DecidableEq, Repr

structure AggRow where
  label : String
  points : Nat
  first : Nat
  second : Nat
  third : Nat
deriving DecidableEq, Repr

/-- The id_to_label dict comprehension: a later row with the same id
overwrites an earlier one; an unknown id displays as "[id]". -/
def idToLabel (cands : List Candidate) (cid : String) : String :=
  match cands.reverse.find? (fun c => c.id == cid) with
  | some c => c.label
  | none => "[" ++ cid ++ "]"

/-- Keep the first occurrence of each string. -/
def dedupStrGo (seen : List String) : List String → List String
  | [] => []
  | x :: rest =>
    if x ∈ seen then dedupStrGo seen rest
    else x :: dedupStrGo (x :: seen) rest

/-- The eligible ids (the active_ids set): every id when include_inactive,
else only the ids of active rows. The Python set is modelled as the id list
deduplicated keeping first occurrences; the final sort makes the output
independent of this order up to permutation. -/
def eligibleIds (cands : List Candidate) (include_inactive : Bool) : List String :=
  dedupStrGo []
    ((if include_inactive then cands else cands.filter (fun c => c.active)).map Candidate.id)

def initStats (ids : List String) : List (String × Stat) :=
  ids.map (fun i => (i, ⟨0, 0, 0, 0⟩))

/-- The `if f in stats: stats[f][...] += ...` update: bump the entry when
the key is present, otherwise change nothing. -/
def bumpStat (stats : List (String × Stat)) (o : Option String)
    (upd : Stat → Stat) : List (String × Stat) :=
  match o with
  | none => stats
  | some cid => stats.map (fun p => if p.1 = cid then (p.1, upd p.2) else p)

def tallyVote (stats : List (String × Stat)) (v : Vote) : List (String × Stat) :=
  let s1 := bumpStat stats v.first_id
    (fun t => { t with points := t.points + 3, first := t.first + 1 })
  let s2 := bumpStat s1 v.second_id
    (fun t => { t with points := t.points + 2, second := t.second + 1 })
  bumpStat s2 v.third_id
    (fun t => { t with points := t.points + 1, third := t.third + 1 })

def tallyAll (ids : List String) (votes : List Vote) : List (String × Stat) :=
  votes.foldl tallyVote (initStats ids)

/-- Sort key of `sort_values(["points","first","second","third","候補"],
ascending=[False,False,False,False,True])`: descending on the four counts,
ascending on the label as final tie-break. -/
def aggLe (a b : AggRow) : Bool :=
  if a.points ≠ b.points then decide (b.points < a.points)
  else if a.first ≠ b.first then decide (b.first < a.first)
  else if a.second ≠ b.second then decide (b.second < a.second)
  else if a.third ≠ b.third then decide (b.third < a.third)
  else decide (a.label ≤ b.label)

/-- The `df.index = range(1, len(df) + 1)` display ranks: 1-based position. -/
def withRanks : Nat → List AggRow → List RankedRow
  | _, [] => []
  | n, r :: rest => ⟨n, r.label, r.points, r.first, r.second, r.third⟩ :: withRanks (n + 1) rest

/-- aggregate (main7.py lines 204-220): per-eligible-candidate zeroed stats,
one pass over the votes adding 3/2/1 points and bumping the rank count for
eligible ids only, then sort and assign 1-based ranks. An empty stats table
yields the empty result. -/
def aggregate (cands : List Candidate) (votes : List Vote)
    (include_inactive : Bool) : List RankedRow :=
  let stats := tallyAll (eligibleIds cands include_inactive) votes
  let rows := stats.map (fun p =>
    AggRow.mk (idToLabel cands p.1) p.2.points p.2.first p.2.second p.2.third)
  withRanks 1 (List.insertionSort (fun a b => aggLe a b = true) rows)

/-! ## Helper lemmas -/

theorem replOpt_idem (o n : String) (x : Option String) :
    replOpt o n (replOpt o n x) = replOpt o n x := by
  unfold replOpt
  split_ifs with h1 h2 h3 <;> simp_all

theorem replOpt_of_ne (o n : String) (x : Option String) (h : x ≠ some o) :
    replOpt o n x = x := by
  unfold replOpt
  simp [h]

theorem replVote1_idem (o n : String) (v : Vote) :
    replVote1 o n (replVote1 o n v) = replVote1 o n v := by
  cases v
  simp [replVote1, replOpt_idem]

theorem bumpStat_length (stats : List (String × Stat)) (o : Option String)
    (upd : Stat → Stat) : (bumpStat stats o upd).length = stats.length := by
  cases o <;> simp [bumpStat]

theorem tallyVote_length (stats : List (String × Stat)) (v : Vote) :
    (tallyVote stats v).length = stats.length := by
  simp [tallyVote, bumpStat_length]

theorem foldl_tallyVote_length (votes : List Vote) :
    ∀ stats : List (String × Stat),
      (votes.foldl tallyVote stats).length = stats.length := by
  induction votes with
  | nil => intro stats; rfl
  | cons v vs ih =>
    intro stats
    rw [List.foldl_cons, ih (tallyVote stats v), tallyVote_length]

theorem tallyAll_length (ids : List String) (votes : List Vote) :
    (tallyAll ids votes).length = ids.length := by
  rw [tallyAll, foldl_tallyVote_length]
  simp [initStats]

theorem withRanks_length (n : Nat) (l : List AggRow) :
    (withRanks n l).length = l.length := by
  induction l generalizing n with
  | nil => rfl
  | cons r rest ih => simp [withRanks, ih]

theorem withRanks_mem {n : Nat} {l : List AggRow} {x : RankedRow}
    (hx : x ∈ withRanks n l) :
    ∃ r ∈ l, x.label = r.label ∧ x.points = r.points ∧ x.first = r.first ∧
      x.second = r.second ∧ x.third = r.third := by
  induction l generalizing n with
  | nil => cases hx
  | cons r rest ih =>
    rcases List.mem_cons.mp hx with hx1 | hx2
    · subst hx1
      exact ⟨r, List.mem_cons_self r rest, rfl, rfl, rfl, rfl, rfl⟩
    · obtain ⟨q, hq, hrest⟩ := ih hx2
      exact ⟨q, List.mem_cons_of_mem r hq, hrest⟩

theorem aggregate_length (cands : List Candidate) (votes : List Vote) (b : Bool) :
    (aggregate cands votes b).length = (eligibleIds cands b).length := by
  unfold aggregate
  rw [withRanks_length, (List.perm_insertionSort _ _).length_eq,
    List.length_map, tallyAll_length]

/-- Per-candidate score relation the tally loop maintains. -/
def statOk (s : Stat) : Prop := s.points = 3 * s.first + 2 * s.second + s.third

theorem bumpStat_pres (stats : List (String × Stat)) (o : Option String)
    (upd : Stat → Stat) (hupd : ∀ s, statOk s → statOk (upd s))
    (h : ∀ p ∈ stats, statOk p.2) : ∀ p ∈ bumpStat stats o upd, statOk p.2 := by
  cases o with
  | none => simpa [bumpStat] using h
  | some cid =>
    intro p hp
    simp only [bumpStat] at hp
    obtain ⟨q, hq, hpq⟩ := List.mem_map.mp hp
    by_cases hqc : q.1 = cid
    · rw [if_pos hqc] at hpq
      rw [← hpq]
      exact hupd _ (h q hq)
    · rw [if_neg hqc] at hpq
      rw [← hpq]
      exact h q hq

theorem tallyVote_pres (stats : List (String × Stat)) (v : Vote)
    (h : ∀ p ∈ stats, statOk p.2) : ∀ p ∈ tallyVote stats v, statOk p.2 := by
  unfold tallyVote
  apply bumpStat_pres
  · intro s hs; unfold statOk at hs ⊢; simp; omega
  apply bumpStat_pres
  · intro s hs; unfold statOk at hs ⊢; simp; omega
  apply bumpStat_pres
  · intro s hs; unfold statOk at hs ⊢; simp; omega
  exact h

theorem foldl_tallyVote_pres (votes : List Vote) :
    ∀ stats : List (String × Stat), (∀ p ∈ stats, statOk p.2) →
      ∀ p ∈ votes.foldl tallyVote stats, statOk p.2 := by
  induction votes with
  | nil => intro stats h p hp; exact h p hp
  | cons v vs ih =>
    intro stats h p hp
    rw [List.foldl_cons] at hp
    exact ih (tallyVote stats v) (tallyVote_pres stats v h) p hp

theorem tallyAll_pres (ids : List String) (votes : List Vote) :
    ∀ p ∈ tallyAll ids votes, statOk p.2 := by
  apply foldl_tallyVote_pres
  intro p hp
  obtain ⟨i, _, hpi⟩ := List.mem_map.mp hp
  rw [← hpi]
  rfl

/-- Combined effect on one rank field of running the replace loop for an
entire list of duplicate ids with a fixed base id. -/
def replMulti (dups : List String) (b : String) (o : Option String) : Option String :=
  match o with
  | none => none
  | some x => if x ∈ dups then some b else some x

/-- Combined effect of the replace loops on one vote row. -/
def replVote (dups : List String) (b : String) (v : Vote) : Vote :=
  { v with first_id := replMulti dups b v.first_id,
           second_id := replMulti dups b v.second_id,
           third_id := replMulti dups b v.third_id }

theorem replMulti_nil (b : String) (o : Option String) : replMulti [] b o = o := by
  cases o <;> simp [replMulti]

theorem replVote_nil (b : String) (v : Vote) : replVote [] b v = v := by
  cases v
  simp [replVote, replMulti_nil]

theorem replMulti_cons (r b : String) (ds : List String) (o : Option String) :
    replMulti ds b (replOpt r b o) = replMulti (r :: ds) b o := by
  cases o with
  | none => simp [replOpt, replMulti]
  | some x =>
    by_cases hxr : x = r
    · subst hxr
      simp only [replOpt, if_pos rfl, replMulti, List.mem_cons, true_or, if_pos]
      exact ite_self _
    · have : (some x : Option String) ≠ some r := by simp [hxr]
      simp [replOpt, this, replMulti, List.mem_cons, hxr]

theorem replVote_cons (r b : String) (ds : List String) (v : Vote) :
    replVote ds b (replVote1 r b v) = replVote (r :: ds) b v := by
  cases v
  simp [replVote, replVote1, replMulti_cons]

theorem absorb_snd (b : String) (rs : List Candidate) :
    ∀ (cands : List Candidate) (votes : List Vote),
      (absorb b cands votes rs).2 = votes.map (replVote (rs.map Candidate.id) b) := by
  induction rs with
  | nil =>
    intro cands votes
    simp only [absorb, List.map_nil]
    exact ((List.map_congr_left (fun v _ => replVote_nil b v)).trans (List.map_id votes)).symm
  | cons r rest ih =>
    intro cands votes
    show (absorb b _ (replaceId r.id b votes) rest).2 = _
    rw [ih, replaceId, List.map_map]
    exact List.map_congr_left (fun v _ => replVote_cons r.id b (rest.map Candidate.id) v)

theorem absorb_fst (b : String) (rs : List Candidate) :
    ∀ (cands : List Candidate) (votes : List Vote),
      (absorb b cands votes rs).1 =
        cands.filter (fun c => decide (c.id ∉ rs.map Candidate.id)) := by
  induction rs with
  | nil =>
    intro cands votes
    simp [absorb]
  | cons r rest ih =>
    intro cands votes
    show (absorb b (cands.filter _) (replaceId r.id b votes) rest).1 = _
    rw [ih, List.filter_filter]
    apply List.filter_congr
    intro c _
    by_cases h1 : c.id = r.id <;> by_cases h2 : c.id ∈ rest.map Candidate.id <;>
      simp [h1, h2]

theorem mem_ids_dedupeGo (l : List Candidate) :
    ∀ (seen : List String) (x : String),
      x ∈ (dedupeGo seen l).map Candidate.id ↔
        x ∈ l.map Candidate.id ∧ x ∉ seen := by
  induction l with
  | nil => intro seen x; simp [dedupeGo]
  | cons c rest ih =>
    intro seen x
    by_cases hc : c.id ∈ seen
    · rw [dedupeGo, if_pos hc, ih]
      simp only [List.map_cons, List.mem_cons]
      constructor
      · rintro ⟨hm, hs⟩
        exact ⟨Or.inr hm, hs⟩
      · rintro ⟨h, hs⟩
        rcases h with h | h
        · exact absurd (h ▸ hc) hs
        · exact ⟨h, hs⟩
    · rw [dedupeGo, if_neg hc]
      simp only [List.map_cons, List.mem_cons, ih (c.id :: seen) x]
      constructor
      · rintro (rfl | ⟨hm, hns⟩)
        · exact ⟨Or.inl rfl, hc⟩
        · exact ⟨Or.inr hm, fun hs => hns (Or.inr hs)⟩
      · rintro ⟨h, hs⟩
        rcases h with h | hm
        · exact Or.inl h
        · by_cases hx : x = c.id
          · exact Or.inl hx
          · exact Or.inr ⟨hm, fun hmem => hmem.elim hx hs⟩

theorem mem_ids_dedupeById (l : List Candidate) (x : String) :
    x ∈ (dedupeById l).map Candidate.id ↔ x ∈ l.map Candidate.id := by
  rw [dedupeById, mem_ids_dedupeGo]
  simp

theorem nodup_ids_dedupeGo (l : List Candidate) :
    ∀ seen : List String, ((dedupeGo seen l).map Candidate.id).Nodup := by
  induction l with
  | nil => intro seen; simp [dedupeGo]
  | cons c rest ih =>
    intro seen
    rw [dedupeGo]
    split_ifs with hc
    · exact ih seen
    · simp only [List.map_cons, List.nodup_cons]
      refine ⟨fun hmem => ?_, ih (c.id :: seen)⟩
      exact ((mem_ids_dedupeGo rest (c.id :: seen) c.id).mp hmem).2
        (List.mem_cons_self _ _)

theorem nodup_ids_dedupeById (l : List Candidate) :
    ((dedupeById l).map Candidate.id).Nodup := nodup_ids_dedupeGo l []

theorem dedupeGo_eq_self (l : List Candidate) :
    ∀ seen : List String, (l.map Candidate.id).Nodup →
      (∀ x ∈ l.map Candidate.id, x ∉ seen) → dedupeGo seen l = l := by
  induction l with
  | nil => intro seen _ _; rfl
  | cons c rest ih =>
    intro seen hnd hdisj
    have hnd2 : (c.id :: rest.map Candidate.id).Nodup := by
      simpa only [List.map_cons] using hnd
    have hnd' := List.nodup_cons.mp hnd2
    rw [dedupeGo, if_neg (hdisj c.id (by simp))]
    congr 1
    apply ih _ hnd'.2
    intro x hx hmem
    rcases List.mem_cons.mp hmem with h | h
    · exact hnd'.1 (h ▸ hx)
    · exact hdisj x (by simp [hx]) h

theorem dedupeById_eq_self (l : List Candidate)
    (h : (l.map Candidate.id).Nodup) : dedupeById l = l :=
  dedupeGo_eq_self l [] h (fun x _ hmem => List.not_mem_nil x hmem)

theorem updCand_id (cid s : String) (a : Bool) (c : Candidate) :
    (updCand cid s a c).id = c.id := by
  unfold updCand
  split_ifs <;> rfl

theorem map_updCand_ids (cid s : String) (a : Bool) (l : List Candidate) :
    (l.map (updCand cid s a)).map Candidate.id = l.map Candidate.id := by
  rw [List.map_map]
  exact List.map_congr_left (fun c _ => updCand_id cid s a c)

theorem mem_conflictFor {c : Candidate} {l : List Candidate} {key : String} :
    c ∈ conflictFor l key ↔ c ∈ l ∧ normalize_for_merge c.label = key := by
  simp [conflictFor]

/-- In a list whose elements all satisfy the filter exactly when they equal
a distinguished member, the filter of a duplicate-free list is that single
member. -/
theorem filter_eq_singleton {α : Type} [DecidableEq α] (p : α → Bool)
    (l : List α) (hl : l.Nodup) (a : α) (ha : a ∈ l) (hp : p a = true)
    (huniq : ∀ b ∈ l, p b = true → b = a) : l.filter p = [a] := by
  induction l with
  | nil => cases ha
  | cons x xs ih =>
    have hx := List.nodup_cons.mp hl
    rcases List.mem_cons.mp ha with rfl | hmem
    · rw [List.filter_cons_of_pos hp]
      have : xs.filter p = [] := by
        rw [List.filter_eq_nil]
        intro b hb hpb
        exact hx.1 ((huniq b (List.mem_cons_of_mem _ hb) hpb) ▸ hb)
      rw [this]
    · have hpx : p x = false := by
        rcases Bool.eq_false_or_eq_true (p x) with h | h
        · exact absurd ((huniq x (List.mem_cons_self _ _) h) ▸ hmem) hx.1
        · exact h
      rw [List.filter_cons_of_neg (by simp [hpx])]
      exact ih hx.2 hmem (fun b hb hpb => huniq b (List.mem_cons_of_mem _ hb) hpb)

/-! ## Claim theorems -/

/-- C10: append_vote appends exactly one vote row and leaves every
previously persisted row unchanged in content and order: the result has one
more row, agrees with the old vote set on every old position, and carries
the new row at the end. -/
theorem C10_append_one_row (votes : List Vote) (n e : String)
    (f s t : Option String) (now : String) :
    (append_vote votes n e f s t now).length = votes.length + 1 ∧
    (∀ i, i < votes.length →
      (append_vote votes n e f s t now).get? i = votes.get? i) ∧
    (append_vote votes n e f s t now).get? votes.length =
      some ⟨n, e, f, s, t, now⟩ := by
  refine ⟨by simp [append_vote], fun i hi => ?_, ?_⟩
  · simp only [append_vote, List.get?_eq_getElem?]
    exact List.getElem?_append_left hi
  · simp [append_vote, List.getElem?_concat_length]

/-- Witness for C10 at a concrete one-row vote set. -/
theorem C10_append_one_row_witness :
    (append_vote [⟨"v", "E1", some "a", some "b", some "c", "t0"⟩]
        "w" "E2" (some "b") (some "c") (some "a") "t1").length = 2 ∧
    (append_vote [⟨"v", "E1", some "a", some "b", some "c", "t0"⟩]
        "w" "E2" (some "b") (some "c") (some "a") "t1").get? 0 =
      some ⟨"v", "E1", some "a", some "b", some "c", "t0"⟩ ∧
    (append_vote [⟨"v", "E1", some "a", some "b", some "c", "t0"⟩]
        "w" "E2" (some "b") (some "c") (some "a") "t1").get? 1 =
      some ⟨"w", "E2", some "b", some "c", some "a", "t1"⟩ := by
  have h := C10_append_one_row [⟨"v", "E1", some "a", some "b", some "c", "t0"⟩]
    "w" "E2" (some "b") (some "c") (some "a") "t1"
  exact ⟨h.1, by simpa using h.2.1 0 (by decide), h.2.2⟩

/-- C7: replaceId is idempotent — applying it twice with the same arguments
yields the same vote set as applying it once — and it is a no-op when the
old id is absent from every rank field of every vote. -/
theorem C7_replaceId_idem (o n : String) (votes : List Vote) :
    replaceId o n (replaceId o n votes) = replaceId o n votes ∧
    ((∀ v ∈ votes, v.first_id ≠ some o ∧ v.second_id ≠ some o ∧ v.third_id ≠ some o) →
      replaceId o n votes = votes) := by
  constructor
  · unfold replaceId
    rw [List.map_map]
    exact List.map_congr_left (fun v _ => replVote1_idem o n v)
  · intro h
    unfold replaceId
    induction votes with
    | nil => rfl
    | cons v vs ih =>
      have hv := h v (by simp)
      have hrest : ∀ w ∈ vs, w.first_id ≠ some o ∧ w.second_id ≠ some o ∧
          w.third_id ≠ some o := fun w hw => h w (by simp [hw])
      have hfix : replVote1 o n v = v := by
        cases v
        simp only [replVote1]
        simp [replOpt_of_ne _ _ _ hv.1, replOpt_of_ne _ _ _ hv.2.1,
          replOpt_of_ne _ _ _ hv.2.2]
      simp [hfix, ih hrest]

/-- Witness for C7 at a concrete vote set in which the old id is absent. -/
theorem C7_replaceId_idem_witness :
    replaceId "x" "y" (replaceId "x" "y" [⟨"v", "E1", some "a", none, some "b", "t"⟩]) =
      replaceId "x" "y" [⟨"v", "E1", some "a", none, some "b", "t"⟩] ∧
    replaceId "x" "y" [⟨"v", "E1", some "a", none, some "b", "t"⟩] =
      [⟨"v", "E1", some "a", none, some "b", "t"⟩] := by
  have h := C7_replaceId_idem "x" "y" [⟨"v", "E1", some "a", none, some "b", "t"⟩]
  exact ⟨h.1, h.2 (by decide)⟩

/-- C8: normalize_for_merge is a total Lean function (hence pure and
deterministic); the empty string maps to the empty key, and every
non-string argument maps to the empty key. -/
theorem C8_normalize_total :
    normalize_for_merge_dyn (.pstr "") = "" ∧
    ∀ v : PyVal, (∀ s, v ≠ .pstr s) → normalize_for_merge_dyn v = "" := by
  refine ⟨by decide, fun v hv => ?_⟩
  cases v with
  | pstr s => exact absurd rfl (hv s)
  | pnone => rfl
  | pint k => rfl
  | pbool b => rfl

/-- Witness for C8 at the non-string value None. -/
theorem C8_normalize_total_witness :
    normalize_for_merge_dyn PyVal.pnone = "" :=
  C8_normalize_total.2 PyVal.pnone (fun s h => PyVal.noConfusion h)

/-- C6: a submission whose first-place and second-place selections are the
same candidate id is rejected with a validation error, and the handler
never returns an extended vote set (no row appended). -/
theorem C6_first_eq_second_rejected (votes : List Vote) (n e c : String)
    (t : Option String) (now : String) :
    (∃ err, submitVote votes n e (some c) (some c) t now = .error err) ∧
    ∀ res, submitVote votes n e (some c) (some c) t now ≠ .ok res := by
  obtain ⟨err, herr⟩ : ∃ err, submitVote votes n e (some c) (some c) t now = .error err := by
    unfold submitVote
    split_ifs with h1 h2 h3
    · exact ⟨_, rfl⟩
    · exact ⟨_, rfl⟩
    · exact ⟨_, rfl⟩
    · exact ⟨_, rfl⟩
    · exact absurd (Or.inl rfl) h3
  exact ⟨⟨err, herr⟩, fun res hres => by rw [herr] at hres; exact Except.noConfusion hres⟩

/-- C5: with the one-ballot-per-employee rule of main7.py, a submission
whose normalized employee number (NFKC, stripped, letters uppercased)
already occurs among the persisted votes is rejected — the handler returns
a validation error, so no row is appended — and when every other check
passes the error is precisely the duplicate-voter one; the check ranges
over the full persisted vote set. -/
theorem C5_duplicate_voter_rejected (votes : List Vote) (n e : String)
    (f s t : Option String) (now : String)
    (hdup : ∃ v ∈ votes, norm_emp_id v.employee_id = norm_emp_id e) :
    (∃ err, submitVote votes n e f s t now = .error err) ∧
    (n ≠ "" → e ≠ "" → f ≠ none → s ≠ none → t ≠ none →
      f ≠ s → f ≠ t → s ≠ t →
      submitVote votes n e f s t now = .error .duplicateVoter) := by
  have hany : votes.any (fun v => norm_emp_id v.employee_id == norm_emp_id e) = true := by
    obtain ⟨v, hv, heq⟩ := hdup
    exact List.any_eq_true.mpr ⟨v, hv, beq_iff_eq.mpr heq⟩
  constructor
  · unfold submitVote
    split_ifs with h1 h2 h3
    · exact ⟨_, rfl⟩
    · exact ⟨_, rfl⟩
    · exact ⟨_, rfl⟩
    · exact ⟨_, rfl⟩
  · intro hn he hf hs ht hfs hft hst
    unfold submitVote
    split_ifs with h1 h2 h3
    · exact h1.elim (fun h => absurd h hn) (fun h => absurd h he)
    · exact h2.elim (fun h => absurd h hf)
        (fun h => h.elim (fun h => absurd h hs) (fun h => absurd h ht))
    · exact h3.elim (fun h => absurd h hfs)
        (fun h => h.elim (fun h => absurd h hft) (fun h => absurd h hst))
    · rfl

/-- Witness for C5: "a1" and " A1 " normalize to the same employee key, so
the second ballot is rejected as a duplicate voter. -/
theorem C5_duplicate_voter_rejected_witness :
    submitVote [⟨"v", "a1", some "x", some "y", some "z", "t0"⟩]
      "w" " A1 " (some "x") (some "y") (some "z") "t1" =
      .error .duplicateVoter := by
  have h := C5_duplicate_voter_rejected
    [⟨"v", "a1", some "x", some "y", some "z", "t0"⟩]
    "w" " A1 " (some "x") (some "y") (some "z") "t1"
    ⟨⟨"v", "a1", some "x", some "y", some "z", "t0"⟩, by decide⟩
  exact h.2 (by decide) (by decide) (by decide) (by decide) (by decide)
    (by decide) (by decide) (by decide)

/-- C2 counterexample: with one eligible candidate and an empty vote set,
aggregate returns a one-row table (all counts zero), not the empty ranked
list the claim predicts for the no-votes case. -/
theorem C2_counterexample :
    aggregate [⟨"a", "A", true⟩] [] true ≠ [] := by
  decide

/-- C2 amended: aggregate never fails (it is a total function) and returns
the empty ranked list exactly when there are no eligible candidates; when
the vote set is empty but eligible candidates exist it instead returns one
row per eligible candidate with every count zero. -/
theorem C2_aggregate_empty (cands : List Candidate) (votes : List Vote) (b : Bool) :
    (aggregate cands votes b = [] ↔ eligibleIds cands b = []) ∧
    (aggregate cands [] b).length = (eligibleIds cands b).length ∧
    ∀ row ∈ aggregate cands [] b,
      row.points = 0 ∧ row.first = 0 ∧ row.second = 0 ∧ row.third = 0 := by
  refine ⟨?_, aggregate_length cands [] b, ?_⟩
  · rw [← List.length_eq_zero, ← List.length_eq_zero, aggregate_length]
  · intro row hrow
    unfold aggregate at hrow
    obtain ⟨r, hr, _, hp, hf, hs, ht⟩ := withRanks_mem hrow
    have hr2 : r ∈ (tallyAll (eligibleIds cands b) []).map (fun p =>
        AggRow.mk (idToLabel cands p.1) p.2.points p.2.first p.2.second p.2.third) :=
      (List.perm_insertionSort _ _).mem_iff.mp hr
    obtain ⟨p, hp2, hrp⟩ := List.mem_map.mp hr2
    have hinit : p ∈ initStats (eligibleIds cands b) := hp2
    obtain ⟨i, _, hpi⟩ := List.mem_map.mp hinit
    rw [← hpi] at hrp
    rw [hp, hf, hs, ht, ← hrp]
    exact ⟨rfl, rfl, rfl, rfl⟩

/-- Witness for C2: the no-eligible-candidates direction at the empty
candidate set, and the all-zero row produced for candidate "a" when no
votes exist. -/
theorem C2_aggregate_empty_witness :
    aggregate ([] : List Candidate) ([] : List Vote) true = [] ∧
    ((⟨1, "A", 0, 0, 0, 0⟩ : RankedRow).points = 0 ∧
      (⟨1, "A", 0, 0, 0, 0⟩ : RankedRow).first = 0 ∧
      (⟨1, "A", 0, 0, 0, 0⟩ : RankedRow).second = 0 ∧
      (⟨1, "A", 0, 0, 0, 0⟩ : RankedRow).third = 0) := by
  refine ⟨(C2_aggregate_empty [] [] true).1.mpr (by decide), ?_⟩
  exact (C2_aggregate_empty [⟨"a", "A", true⟩] [] true).2.2
    ⟨1, "A", 0, 0, 0, 0⟩ (by decide)

/-- C9: every row of the ranked output satisfies
points = 3 * firstCount + 2 * secondCount + 1 * thirdCount, because the
tally loop adds the points and the rank count together in each branch. -/
theorem C9_points_formula (cands : List Candidate) (votes : List Vote) (b : Bool) :
    ∀ row ∈ aggregate cands votes b,
      row.points = 3 * row.first + 2 * row.second + row.third := by
  intro row hrow
  unfold aggregate at hrow
  obtain ⟨r, hr, _, hp, hf, hs, ht⟩ := withRanks_mem hrow
  have hr2 : r ∈ (tallyAll (eligibleIds cands b) votes).map (fun p =>
      AggRow.mk (idToLabel cands p.1) p.2.points p.2.first p.2.second p.2.third) :=
    (List.perm_insertionSort _ _).mem_iff.mp hr
  obtain ⟨p, hp2, hrp⟩ := List.mem_map.mp hr2
  have hok := tallyAll_pres (eligibleIds cands b) votes p hp2
  rw [hp, hf, hs, ht, ← hrp]
  exact hok

/-- Witness for C9 on a one-candidate, one-vote election. -/
theorem C9_points_formula_witness :
    (⟨1, "A", 3, 1, 0, 0⟩ : RankedRow) ∈
      aggregate [⟨"a", "A", true⟩] [⟨"n", "e", some "a", none, none, "t"⟩] true ∧
    (⟨1, "A", 3, 1, 0, 0⟩ : RankedRow).points =
      3 * (⟨1, "A", 3, 1, 0, 0⟩ : RankedRow).first +
      2 * (⟨1, "A", 3, 1, 0, 0⟩ : RankedRow).second +
      (⟨1, "A", 3, 1, 0, 0⟩ : RankedRow).third :=
  ⟨by decide, C9_points_formula [⟨"a", "A", true⟩]
    [⟨"n", "e", some "a", none, none, "t"⟩] true ⟨1, "A", 3, 1, 0, 0⟩ (by decide)⟩

/-- C1 counterexample: in the state with candidates X = ("x","A"), Y =
("y","B") and one vote ranking "x" first and "y" second, renaming X to "B"
(which normalizes like Y's label) refutes the claim: it is not the case
that votes formerly referencing "x" now reference "y" and "x" is gone from
the candidate set — the code keeps "x" and rewrites "y" to "x". -/
theorem C1_counterexample :
    ¬ ((renameSave ⟨[⟨"x", "A", true⟩, ⟨"y", "B", true⟩],
          [⟨"n", "e", some "x", some "y", none, "t"⟩]⟩ 0 "B" true).votes.map
          Vote.first_id = [some "y"] ∧
       "x" ∉ ((renameSave ⟨[⟨"x", "A", true⟩, ⟨"y", "B", true⟩],
          [⟨"n", "e", some "x", some "y", none, "t"⟩]⟩ 0 "B" true).cands.map
          Candidate.id)) := by
  decide

/-- C1 amended: renaming candidate X to a label whose normalization key
equals that of another existing candidate Y merges Y into X (the converse
direction of the claim): after the save Y's id is no longer present in the
candidate set, X's id still is, and every vote rank field that previously
held Y's id now holds X's id. -/
theorem C1_rename_merges (st : AppState) (idx : Nat) (raw : String) (act : Bool)
    (X Y : Candidate) (hX : st.cands.get? idx = some X)
    (hY : Y ∈ st.cands) (hne : Y.id ≠ X.id)
    (hlab : pyStrip raw ≠ "")
    (hkey : normalize_for_merge Y.label = normalize_for_merge (pyStrip raw)) :
    Y.id ∉ (renameSave st idx raw act).cands.map Candidate.id ∧
    X.id ∈ (renameSave st idx raw act).cands.map Candidate.id ∧
    (renameSave st idx raw act).votes.length = st.votes.length ∧
    ∀ i v, st.votes.get? i = some v →
      ∃ w, (renameSave st idx raw act).votes.get? i = some w ∧
        (v.first_id = some Y.id → w.first_id = some X.id) ∧
        (v.second_id = some Y.id → w.second_id = some X.id) ∧
        (v.third_id = some Y.id → w.third_id = some X.id) := by
  have hrs : renameSave st idx raw act =
      { cands := dedupeById ((st.cands.map (updCand X.id (pyStrip raw) act)).filter
          (fun c => decide (c.id ∉ (renameConflict st X.id (pyStrip raw)).map Candidate.id))),
        votes := st.votes.map
          (replVote ((renameConflict st X.id (pyStrip raw)).map Candidate.id) X.id) } := by
    simp only [renameSave, hX]
    rw [if_neg hlab, absorb_fst, absorb_snd]
  have hYd : Y.id ∈ (renameConflict st X.id (pyStrip raw)).map Candidate.id := by
    refine List.mem_map.mpr ⟨Y, ?_, rfl⟩
    unfold renameConflict
    exact List.mem_filter.mpr ⟨hY, by simp [hkey, hne]⟩
  have hXd : X.id ∉ (renameConflict st X.id (pyStrip raw)).map Candidate.id := by
    intro hmem
    obtain ⟨c, hc, hcid⟩ := List.mem_map.mp hmem
    have hcf := List.mem_filter.mp hc
    exact (of_decide_eq_true hcf.2).2 hcid
  refine ⟨?_, ?_, ?_, ?_⟩
  · rw [hrs]
    intro hmem
    rw [mem_ids_dedupeById] at hmem
    obtain ⟨c, hc, hcid⟩ := List.mem_map.mp hmem
    have hcf := List.mem_filter.mp hc
    exact (of_decide_eq_true hcf.2) (hcid ▸ hYd)
  · rw [hrs]
    show X.id ∈ _
    rw [mem_ids_dedupeById]
    refine List.mem_map.mpr ⟨updCand X.id (pyStrip raw) act X, ?_, updCand_id _ _ _ _⟩
    refine List.mem_filter.mpr ⟨List.mem_map_of_mem _ (List.get?_mem hX), ?_⟩
    rw [decide_eq_true_eq, updCand_id]
    exact hXd
  · rw [hrs]
    exact List.length_map _ _
  · intro i v hv
    rw [hrs]
    refine ⟨replVote ((renameConflict st X.id (pyStrip raw)).map Candidate.id) X.id v, ?_, ?_, ?_, ?_⟩
    · rw [List.get?_map, hv]
      rfl
    · intro h
      simp [replVote, replMulti, h, hYd]
    · intro h
      simp [replVote, replMulti, h, hYd]
    · intro h
      simp [replVote, replMulti, h, hYd]

/-- Witness for the amended C1 on the two-candidate counterexample state:
after renaming "x" to "B", "y" is gone, "x" remains, and the vote's
second-place reference to "y" now reads "x". -/
theorem C1_rename_merges_witness :
    "y" ∉ ((renameSave ⟨[⟨"x", "A", true⟩, ⟨"y", "B", true⟩],
        [⟨"n", "e", some "x", some "y", none, "t"⟩]⟩ 0 "B" true).cands.map
        Candidate.id) ∧
    "x" ∈ ((renameSave ⟨[⟨"x", "A", true⟩, ⟨"y", "B", true⟩],
        [⟨"n", "e", some "x", some "y", none, "t"⟩]⟩ 0 "B" true).cands.map
        Candidate.id) := by
  have h := C1_rename_merges
    ⟨[⟨"x", "A", true⟩, ⟨"y", "B", true⟩], [⟨"n", "e", some "x", some "y", none, "t"⟩]⟩
    0 "B" true ⟨"x", "A", true⟩ ⟨"y", "B", true⟩
    (by decide) (by decide) (by decide) (by decide) (by decide)
  exact ⟨h.1, h.2.1⟩

/-! ## Unfolding equations for the add handler and integrity helpers -/

theorem addMerge_noop (st : AppState) (raw f : String)
    (hlab : pyStrip raw = "") : addMerge st raw f = (st, none) := by
  simp [addMerge, hlab]

theorem addMerge_create_eq (st : AppState) (raw f : String)
    (hlab : pyStrip raw ≠ "")
    (hc : conflictFor st.cands (normalize_for_merge (pyStrip raw)) = []) :
    addMerge st raw f =
      ({ cands := dedupeById (st.cands ++ [⟨f, pyStrip raw, true⟩]),
         votes := st.votes }, some f) := by
  simp only [addMerge]
  rw [if_neg hlab]
  simp only [hc]

theorem addMerge_merge_eq (st : AppState) (raw f : String)
    (hlab : pyStrip raw ≠ "") (base : Candidate) (rest : List Candidate)
    (hc : conflictFor st.cands (normalize_for_merge (pyStrip raw)) = base :: rest) :
    addMerge st raw f =
      ({ cands := dedupeById ((st.cands.map (updCand base.id (pyStrip raw) true)).filter
           (fun c => decide (c.id ∉ rest.map Candidate.id))),
         votes := st.votes.map (replVote (rest.map Candidate.id) base.id) },
       some base.id) := by
  simp only [addMerge]
  rw [if_neg hlab]
  simp only [hc]
  rw [absorb_fst, absorb_snd]

theorem conflict_ids_nodup (st : AppState) (key : String)
    (hn : (st.cands.map Candidate.id).Nodup) :
    ((conflictFor st.cands key).map Candidate.id).Nodup :=
  ((List.filter_sublist st.cands).map Candidate.id).nodup hn

theorem idOk_of_subset (cands cands' : List Candidate) (o : Option String)
    (hsub : ∀ x, x ∈ cands.map Candidate.id → x ∈ cands'.map Candidate.id)
    (ho : idOk cands o) : idOk cands' o := by
  rcases ho with h | ⟨c, hc, hoc⟩
  · exact Or.inl h
  · obtain ⟨c', hc', hcid⟩ := List.mem_map.mp (hsub c.id (List.mem_map_of_mem _ hc))
    exact Or.inr ⟨c', hc', by rw [hoc, hcid]⟩

theorem mem_ids_merged (cands : List Candidate) (baseId label_s : String)
    (act : Bool) (dups : List Candidate) (x : String)
    (hx : x ∈ cands.map Candidate.id) (hxd : x ∉ dups.map Candidate.id) :
    x ∈ (dedupeById ((cands.map (updCand baseId label_s act)).filter
        (fun c => decide (c.id ∉ dups.map Candidate.id)))).map Candidate.id := by
  rw [mem_ids_dedupeById]
  obtain ⟨c, hc, hcid⟩ := List.mem_map.mp hx
  refine List.mem_map.mpr ⟨updCand baseId label_s act c, ?_, by rw [updCand_id]; exact hcid⟩
  refine List.mem_filter.mpr ⟨List.mem_map_of_mem _ hc, ?_⟩
  rw [decide_eq_true_eq, updCand_id, hcid]
  exact hxd

theorem idOk_merged (cands : List Candidate) (baseId label_s : String)
    (act : Bool) (dups : List Candidate)
    (hbase : baseId ∈ cands.map Candidate.id)
    (hbase_not : baseId ∉ dups.map Candidate.id)
    (o : Option String) (ho : idOk cands o) :
    idOk (dedupeById ((cands.map (updCand baseId label_s act)).filter
        (fun c => decide (c.id ∉ dups.map Candidate.id))))
      (replMulti (dups.map Candidate.id) baseId o) := by
  cases o with
  | none => exact Or.inl rfl
  | some x =>
    show idOk _ (if x ∈ dups.map Candidate.id then some baseId else some x)
    split_ifs with hxd
    · obtain ⟨c', hc', hcid⟩ := List.mem_map.mp
        (mem_ids_merged cands baseId label_s act dups baseId hbase hbase_not)
      exact Or.inr ⟨c', hc', by rw [hcid]⟩
    · rcases ho with h | ⟨c, hc, hoc⟩
      · exact absurd h (by simp)
      · have hx : x ∈ cands.map Candidate.id := by
          rw [Option.some.injEq] at hoc
          rw [hoc]
          exact List.mem_map_of_mem _ hc
        obtain ⟨c', hc', hcid⟩ := List.mem_map.mp
          (mem_ids_merged cands baseId label_s act dups x hx hxd)
        exact Or.inr ⟨c', hc', by rw [hcid]⟩

theorem idOk_deleted (cands : List Candidate) (cid : String) (o : Option String)
    (ho : idOk cands o) :
    idOk (dedupeById (cands.filter (fun c => decide (c.id ≠ cid))))
      (nullOpt cid o) := by
  unfold nullOpt
  split_ifs with h
  · exact Or.inl rfl
  · rcases ho with h0 | ⟨c, hc, hoc⟩
    · exact Or.inl h0
    · have hcne : c.id ≠ cid := fun hceq => h (by rw [hoc, hceq])
      have hmem : c.id ∈ (dedupeById (cands.filter
          (fun c => decide (c.id ≠ cid)))).map Candidate.id := by
        rw [mem_ids_dedupeById]
        exact List.mem_map_of_mem _ (List.mem_filter.mpr ⟨hc, by simp [hcne]⟩)
      obtain ⟨c', hc', hcid⟩ := List.mem_map.mp hmem
      exact Or.inr ⟨c', hc', by rw [hoc, hcid]⟩

theorem renameSave_pres (st : AppState) (idx : Nat) (raw : String) (act : Bool)
    (hn : (st.cands.map Candidate.id).Nodup) (hint : refIntegrity st) :
    ((renameSave st idx raw act).cands.map Candidate.id).Nodup ∧
      refIntegrity (renameSave st idx raw act) := by
  cases hX : st.cands.get? idx with
  | none =>
    simp only [renameSave, hX]
    exact ⟨hn, hint⟩
  | some row =>
    by_cases hlab : pyStrip raw = ""
    · simp only [renameSave, hX, hlab]
      simpa using ⟨hn, hint⟩
    · have hrs : renameSave st idx raw act =
          { cands := dedupeById ((st.cands.map (updCand row.id (pyStrip raw) act)).filter
              (fun c => decide (c.id ∉ (renameConflict st row.id (pyStrip raw)).map Candidate.id))),
            votes := st.votes.map
              (replVote ((renameConflict st row.id (pyStrip raw)).map Candidate.id) row.id) } := by
        simp only [renameSave, hX]
        rw [if_neg hlab, absorb_fst, absorb_snd]
      rw [hrs]
      refine ⟨nodup_ids_dedupeById _, ?_⟩
      intro v hv
      obtain ⟨w, hw, rfl⟩ := List.mem_map.mp hv
      have hok := hint w hw
      have hbase : row.id ∈ st.cands.map Candidate.id :=
        List.mem_map_of_mem _ (List.get?_mem hX)
      have hbn : row.id ∉ (renameConflict st row.id (pyStrip raw)).map Candidate.id := by
        intro hmem
        obtain ⟨c, hc, hcid⟩ := List.mem_map.mp hmem
        exact (of_decide_eq_true (List.mem_filter.mp hc).2).2 hcid
      exact ⟨idOk_merged _ _ _ _ _ hbase hbn _ hok.1,
             idOk_merged _ _ _ _ _ hbase hbn _ hok.2.1,
             idOk_merged _ _ _ _ _ hbase hbn _ hok.2.2⟩

theorem addMerge_pres (st : AppState) (raw f : String)
    (hn : (st.cands.map Candidate.id).Nodup) (hint : refIntegrity st) :
    (((addMerge st raw f).1.cands.map Candidate.id).Nodup) ∧
      refIntegrity (addMerge st raw f).1 := by
  by_cases hlab : pyStrip raw = ""
  · rw [addMerge_noop st raw f hlab]
    exact ⟨hn, hint⟩
  · cases hc : conflictFor st.cands (normalize_for_merge (pyStrip raw)) with
    | nil =>
      rw [addMerge_create_eq st raw f hlab hc]
      refine ⟨nodup_ids_dedupeById _, ?_⟩
      intro v hv
      have hok := hint v hv
      have hsub : ∀ x, x ∈ st.cands.map Candidate.id →
          x ∈ (dedupeById (st.cands ++ [⟨f, pyStrip raw, true⟩])).map Candidate.id := by
        intro x hx
        rw [mem_ids_dedupeById, List.map_append]
        exact List.mem_append_left _ hx
      exact ⟨idOk_of_subset _ _ _ hsub hok.1, idOk_of_subset _ _ _ hsub hok.2.1,
             idOk_of_subset _ _ _ hsub hok.2.2⟩
    | cons base rest =>
      rw [addMerge_merge_eq st raw f hlab base rest hc]
      refine ⟨nodup_ids_dedupeById _, ?_⟩
      have hcn : ((base :: rest).map Candidate.id).Nodup := by
        rw [← hc]
        exact conflict_ids_nodup st _ hn
      have hbn : base.id ∉ rest.map Candidate.id :=
        (List.nodup_cons.mp (by simpa using hcn)).1
      have hbase_st : base ∈ st.cands := by
        have : base ∈ conflictFor st.cands (normalize_for_merge (pyStrip raw)) := by
          rw [hc]
          exact List.mem_cons_self _ _
        exact (mem_conflictFor.mp this).1
      intro v hv
      obtain ⟨w, hw, rfl⟩ := List.mem_map.mp hv
      have hok := hint w hw
      have hbase : base.id ∈ st.cands.map Candidate.id := List.mem_map_of_mem _ hbase_st
      exact ⟨idOk_merged _ _ _ _ _ hbase hbn _ hok.1,
             idOk_merged _ _ _ _ _ hbase hbn _ hok.2.1,
             idOk_merged _ _ _ _ _ hbase hbn _ hok.2.2⟩

theorem deleteCand_pres (st : AppState) (idx : Nat)
    (hn : (st.cands.map Candidate.id).Nodup) (hint : refIntegrity st) :
    (((deleteCand st idx).cands.map Candidate.id).Nodup) ∧
      refIntegrity (deleteCand st idx) := by
  cases hX : st.cands.get? idx with
  | none =>
    simp only [deleteCand, hX]
    exact ⟨hn, hint⟩
  | some row =>
    simp only [deleteCand, hX]
    refine ⟨nodup_ids_dedupeById _, ?_⟩
    intro v hv
    obtain ⟨w, hw, rfl⟩ := List.mem_map.mp hv
    have hok := hint w hw
    exact ⟨idOk_deleted _ _ _ hok.1, idOk_deleted _ _ _ hok.2.1,
           idOk_deleted _ _ _ hok.2.2⟩

theorem applyOp_pres (st : AppState) (op : AdminOp)
    (hn : (st.cands.map Candidate.id).Nodup) (hint : refIntegrity st) :
    (((applyOp st op).cands.map Candidate.id).Nodup) ∧
      refIntegrity (applyOp st op) := by
  cases op with
  | add raw f => exact addMerge_pres st raw f hn hint
  | save idx raw act => exact renameSave_pres st idx raw act hn hint
  | del idx => exact deleteCand_pres st idx hn hint

/-- C3 counterexample: the claim's precondition (vote validity alone) is
not enough. In a state whose candidate table carries the id "a" twice (with
labels "P" and "P-" that normalize to the same key) and one vote for "a",
integrity holds, yet one add operation with label "P" removes every "a" row
while the vote still references "a". -/
theorem C3_counterexample :
    refIntegrity ⟨[⟨"a", "P", true⟩, ⟨"a", "P-", true⟩],
      [⟨"n", "e", some "a", none, none, "t"⟩]⟩ ∧
    ¬ refIntegrity (applyOps ⟨[⟨"a", "P", true⟩, ⟨"a", "P-", true⟩],
      [⟨"n", "e", some "a", none, none, "t"⟩]⟩ [AdminOp.add "P" "zz"]) := by
  decide

/-- C3 amended: referential integrity is preserved by every finite sequence
of add/merge, rename/merge and delete operations, provided the start state
additionally has pairwise-distinct candidate ids (which save_candidates
enforces on every persisted state); id distinctness is itself preserved. -/
theorem C3_integrity_preserved (st : AppState) (ops : List AdminOp)
    (hn : (st.cands.map Candidate.id).Nodup) (hint : refIntegrity st) :
    refIntegrity (applyOps st ops) ∧
      ((applyOps st ops).cands.map Candidate.id).Nodup := by
  induction ops generalizing st with
  | nil => exact ⟨hint, hn⟩
  | cons op rest ih =>
    have h := applyOp_pres st op hn hint
    have hstep : applyOps st (op :: rest) = applyOps (applyOp st op) rest := rfl
    rw [hstep]
    exact ih (applyOp st op) h.1 h.2

/-- Witness for the amended C3: a duplicate-free two-candidate state with
one vote stays integral across a rename-merge, a delete and an add. -/
theorem C3_integrity_preserved_witness :
    refIntegrity (applyOps ⟨[⟨"x", "A", true⟩, ⟨"y", "B", true⟩],
      [⟨"n", "e", some "x", some "y", none, "t"⟩]⟩
      [AdminOp.save 0 "B" true, AdminOp.del 0, AdminOp.add "C" "zz"]) :=
  (C3_integrity_preserved ⟨[⟨"x", "A", true⟩, ⟨"y", "B", true⟩],
      [⟨"n", "e", some "x", some "y", none, "t"⟩]⟩
    [AdminOp.save 0 "B" true, AdminOp.del 0, AdminOp.add "C" "zz"]
    (by decide) (by decide)).1

theorem updCand_of_ne (cid s : String) (act : Bool) (c : Candidate)
    (h : c.id ≠ cid) : updCand cid s act c = c := by
  simp [updCand, h]

theorem updCand_self (cid s : String) (act : Bool) (c : Candidate)
    (h : c.id = cid) : updCand cid s act c = ⟨c.id, s, act⟩ := by
  simp [updCand, h]

/-- After an add/upsert with a fresh id on a duplicate-free store, the
handler returned some canonical id, the store still has duplicate-free ids,
and exactly one candidate matches the submitted label's key: the canonical
one, carrying the submitted (stripped) label, active. -/
theorem addMerge_post (st : AppState) (raw f : String)
    (hn : (st.cands.map Candidate.id).Nodup)
    (hlab : pyStrip raw ≠ "")
    (hf : f ∉ st.cands.map Candidate.id) :
    ∃ cid,
      (addMerge st raw f).2 = some cid ∧
      (((addMerge st raw f).1.cands.map Candidate.id).Nodup) ∧
      conflictFor (addMerge st raw f).1.cands (normalize_for_merge (pyStrip raw)) =
        [⟨cid, pyStrip raw, true⟩] := by
  cases hc : conflictFor st.cands (normalize_for_merge (pyStrip raw)) with
  | nil =>
    rw [addMerge_create_eq st raw f hlab hc]
    refine ⟨f, rfl, nodup_ids_dedupeById _, ?_⟩
    have hnodup2 : ((st.cands ++ [(⟨f, pyStrip raw, true⟩ : Candidate)]).map
        Candidate.id).Nodup := by
      rw [List.map_append]
      refine List.Nodup.append hn (by simp) ?_
      intro x hx hx2
      simp only [List.map_cons, List.map_nil, List.mem_singleton] at hx2
      exact hf (hx2 ▸ hx)
    show conflictFor (dedupeById (st.cands ++ [(⟨f, pyStrip raw, true⟩ : Candidate)])) _ = _
    rw [dedupeById_eq_self _ hnodup2]
    unfold conflictFor at hc ⊢
    rw [List.filter_append, hc]
    simp

  | cons base rest =>
    rw [addMerge_merge_eq st raw f hlab base rest hc]
    refine ⟨base.id, rfl, nodup_ids_dedupeById _, ?_⟩
    have hcn : ((base :: rest).map Candidate.id).Nodup := by
      rw [← hc]
      exact conflict_ids_nodup st _ hn
    have hbn : base.id ∉ rest.map Candidate.id :=
      (List.nodup_cons.mp (by simpa using hcn)).1
    have hbase_st : base ∈ st.cands := by
      have hmem : base ∈ conflictFor st.cands (normalize_for_merge (pyStrip raw)) := by
        rw [hc]
        exact List.mem_cons_self _ _
      exact (mem_conflictFor.mp hmem).1
    have hids2 : (((st.cands.map (updCand base.id (pyStrip raw) true)).filter
        (fun c => decide (c.id ∉ rest.map Candidate.id))).map Candidate.id).Nodup := by
      have h1 : List.Sublist
          (((st.cands.map (updCand base.id (pyStrip raw) true)).filter
            (fun c => decide (c.id ∉ rest.map Candidate.id))).map Candidate.id)
          ((st.cands.map (updCand base.id (pyStrip raw) true)).map Candidate.id) :=
        (List.filter_sublist _).map Candidate.id
      rw [map_updCand_ids] at h1
      exact h1.nodup hn
    show conflictFor (dedupeById _) _ = _
    rw [dedupeById_eq_self _ hids2]
    unfold conflictFor
    apply filter_eq_singleton _ _ (List.Nodup.of_map _ hids2)
    · refine List.mem_filter.mpr ⟨?_, ?_⟩
      · have : updCand base.id (pyStrip raw) true base = ⟨base.id, pyStrip raw, true⟩ :=
          updCand_self _ _ _ _ rfl
        exact this ▸ List.mem_map_of_mem _ hbase_st
      · rw [decide_eq_true_eq]
        exact hbn
    · simp
    · intro c2 hc2 hp2
      have hc2f := List.mem_filter.mp hc2
      obtain ⟨c, hc_st, hcu⟩ := List.mem_map.mp hc2f.1
      have hc2id : c2.id ∉ rest.map Candidate.id := of_decide_eq_true hc2f.2
      by_cases hcb : c.id = base.id
      · have hcbase : c = base := List.inj_on_of_nodup_map hn hc_st hbase_st hcb
        rw [← hcu, hcbase, updCand_self _ _ _ _ rfl]
      · rw [updCand_of_ne _ _ _ _ hcb] at hcu
        subst hcu
        have hkey2 : normalize_for_merge c.label = normalize_for_merge (pyStrip raw) :=
          of_decide_eq_true hp2
        have hmem : c ∈ conflictFor st.cands (normalize_for_merge (pyStrip raw)) :=
          mem_conflictFor.mpr ⟨hc_st, hkey2⟩
        rw [hc] at hmem
        rcases List.mem_cons.mp hmem with h | h
        · exact absurd (by rw [h]) hcb
        · exact absurd (List.mem_map_of_mem _ h) hc2id

/-- C4: when the submitted label's normalization key collides with existing
candidates, the add/upsert handler takes the first match in table order as
canonical, gives it the supplied (stripped) label with the active flag set,
rewrites every vote from each other matching candidate's id to the
canonical id, removes those candidates, and returns the canonical id;
consequently upserting label a and then label b with equal keys yields the
same candidate id twice, and every candidate still carrying that key ends
with label b (no entry remains for the non-canonical label). Fresh ids are
assumed fresh and the store's ids duplicate-free, as generateId and
save_candidates guarantee. -/
theorem C4_upsert_canonical (st : AppState) (a b f1 f2 : String)
    (hn : (st.cands.map Candidate.id).Nodup)
    (ha : pyStrip a ≠ "") (hb : pyStrip b ≠ "")
    (hab : normalize_for_merge (pyStrip a) = normalize_for_merge (pyStrip b))
    (hf1 : f1 ∉ st.cands.map Candidate.id)
    (hf2 : f2 ∉ (addMerge st a f1).1.cands.map Candidate.id) :
    (∀ base rest,
      conflictFor st.cands (normalize_for_merge (pyStrip a)) = base :: rest →
        (addMerge st a f1).2 = some base.id ∧
        (∃ c ∈ (addMerge st a f1).1.cands,
          c.id = base.id ∧ c.label = pyStrip a ∧ c.active = true) ∧
        (∀ d ∈ rest, d.id ∉ (addMerge st a f1).1.cands.map Candidate.id) ∧
        (addMerge st a f1).1.votes =
          st.votes.map (replVote (rest.map Candidate.id) base.id)) ∧
    (∃ i, (addMerge st a f1).2 = some i ∧
      (addMerge (addMerge st a f1).1 b f2).2 = some i ∧
      ∀ c ∈ (addMerge (addMerge st a f1).1 b f2).1.cands,
        normalize_for_merge c.label = normalize_for_merge (pyStrip a) →
          c.label = pyStrip b) := by
  constructor
  · intro base rest hc
    rw [addMerge_merge_eq st a f1 ha base rest hc]
    have hcn : ((base :: rest).map Candidate.id).Nodup := by
      rw [← hc]
      exact conflict_ids_nodup st _ hn
    have hbn : base.id ∉ rest.map Candidate.id :=
      (List.nodup_cons.mp (by simpa using hcn)).1
    have hbase_st : base ∈ st.cands := by
      have hmem : base ∈ conflictFor st.cands (normalize_for_merge (pyStrip a)) := by
        rw [hc]
        exact List.mem_cons_self _ _
      exact (mem_conflictFor.mp hmem).1
    refine ⟨rfl, ?_, ?_, rfl⟩
    · refine ⟨updCand base.id (pyStrip a) true base, ?_, ?_⟩
      · have hids2 : (((st.cands.map (updCand base.id (pyStrip a) true)).filter
            (fun c => decide (c.id ∉ rest.map Candidate.id))).map Candidate.id).Nodup := by
          have h1 : List.Sublist
              (((st.cands.map (updCand base.id (pyStrip a) true)).filter
                (fun c => decide (c.id ∉ rest.map Candidate.id))).map Candidate.id)
              ((st.cands.map (updCand base.id (pyStrip a) true)).map Candidate.id) :=
            (List.filter_sublist _).map Candidate.id
          rw [map_updCand_ids] at h1
          exact h1.nodup hn
        show _ ∈ dedupeById _
        rw [dedupeById_eq_self _ hids2]
        refine List.mem_filter.mpr ⟨List.mem_map_of_mem _ hbase_st, ?_⟩
        rw [decide_eq_true_eq, updCand_id]
        exact hbn
      · rw [updCand_self _ _ _ _ rfl]
        exact ⟨rfl, rfl, rfl⟩
    · intro d hd hmem
      rw [mem_ids_dedupeById] at hmem
      obtain ⟨c, hcf, hcid⟩ := List.mem_map.mp hmem
      exact (of_decide_eq_true (List.mem_filter.mp hcf).2)
        (hcid ▸ List.mem_map_of_mem _ hd)
  · obtain ⟨cid, hret1, hnd1, hconf1⟩ := addMerge_post st a f1 hn ha hf1
    have hconf2 : conflictFor (addMerge st a f1).1.cands
        (normalize_for_merge (pyStrip b)) = [⟨cid, pyStrip a, true⟩] := by
      rw [← hab]
      exact hconf1
    have heq2 := addMerge_merge_eq (addMerge st a f1).1 b f2 hb
      ⟨cid, pyStrip a, true⟩ [] hconf2
    obtain ⟨cid2, hret2, _, hconf2f⟩ := addMerge_post (addMerge st a f1).1 b f2 hnd1 hb hf2
    refine ⟨cid, hret1, by rw [heq2], ?_⟩
    intro c hcfin hkeyc
    have hmem : c ∈ conflictFor (addMerge (addMerge st a f1).1 b f2).1.cands
        (normalize_for_merge (pyStrip b)) :=
      mem_conflictFor.mpr ⟨hcfin, by rw [← hab]; exact hkeyc⟩
    rw [hconf2f] at hmem
    rw [List.mem_singleton.mp hmem]

/-- Witness for C4: upserting "パケ" merges into the existing "包装" row
(both normalize to パッケージ) and returns its id; upserting the half-width
spelling afterwards returns the same id. -/
theorem C4_upsert_canonical_witness :
    (addMerge ⟨[⟨"c1", "包装", true⟩], []⟩ "パケ" "f1").2 = some "c1" ∧
    (addMerge (addMerge ⟨[⟨"c1", "包装", true⟩], []⟩ "パケ" "f1").1
      "ﾊﾟｯｹｰｼﾞ" "f2").2 = some "c1" := by
  have h := C4_upsert_canonical ⟨[⟨"c1", "包装", true⟩], []⟩ "パケ" "ﾊﾟｯｹｰｼﾞ" "f1" "f2"
    (by decide) (by decide) (by decide) (by decide) (by decide) (by decide)
  have hc : conflictFor [⟨"c1", "包装", true⟩]
      (normalize_for_merge (pyStrip "パケ")) = [⟨"c1", "包装", true⟩] := by decide
  have hret1 := (h.1 ⟨"c1", "包装", true⟩ [] hc).1
  obtain ⟨i, hi1, hi2, _⟩ := h.2
  have hieq : i = "c1" := Option.some.inj (hi1.symm.trans hret1)
  rw [hi2, hieq]
  exact ⟨hret1, rfl⟩

end Form2
